import Mathlib

/-!
Shallow embedding of `src/Ejercicio.cpp` (a first-fit contiguous memory
allocator) and verification of its specification.

The C++ core is the class `Memoria`, holding a `vector<Bloque>` and the
total capacity `total_memoria`.  Machine `int` is modelled by `Int`
(the program never exercises overflow on the inputs the claims quantify
over; arithmetic is ordinary integer arithmetic).  The operations print
messages; each distinct message is modelled as a result constructor.
-/

namespace Gestor

/-- `LIBRE_BLOCK_NAME` from the source: the sentinel owner of free blocks. -/
def LIBRE_BLOCK_NAME : String := "Libre"

/-- `DEFAULT_TOTAL_MEMORY` from the source: capacity substituted when the
constructor receives a non-positive size. -/
def DEFAULT_TOTAL_MEMORY : Int := 64

/-- `struct Bloque { string nombre; int inicio; int tamaño; }`. -/
@[ext]
structure Bloque where
  nombre : String
  inicio : Int
  tam : Int
  deriving Repr, DecidableEq

/-- The state of `class Memoria`: the block vector and the capacity. -/
@[ext]
structure Memoria where
  bloques : List Bloque
  total_memoria : Int
  deriving Repr, DecidableEq

/-- The constructor `Memoria::Memoria(int size)`: a non-positive size is
replaced by the default, and the block list starts as one free block
covering the whole capacity. -/
def Memoria.init (size : Int) : Memoria :=
  let total := if size ≤ 0 then DEFAULT_TOTAL_MEMORY else size
  { bloques := [⟨LIBRE_BLOCK_NAME, 0, total⟩], total_memoria := total }

/-- Outcomes of `Memoria::cargarProceso`, one per printed message. -/
inductive CargarResult where
  | cargado
  | invalidSize
  | reservedName
  | insufficientSpace
  deriving Repr, DecidableEq

/-- Outcomes of `Memoria::liberarProceso`, one per printed message. -/
inductive LiberarResult where
  | liberado
  | reservedName
  | notFound
  deriving Repr, DecidableEq

/-- The first-fit selection predicate of `cargarProceso`, the condition
of its `find_if`: `b.nombre == LIBRE_BLOCK_NAME && b.tamaño >= tamaño`. -/
def ajuste (tam : Int) (b : Bloque) : Prop :=
  b.nombre = LIBRE_BLOCK_NAME ∧ tam ≤ b.tam

instance (tam : Int) (b : Bloque) : Decidable (ajuste tam b) :=
  inferInstanceAs (Decidable (b.nombre = LIBRE_BLOCK_NAME ∧ tam ≤ b.tam))

/-- The `find_if` + in-place mutation of `cargarProceso`: walk the vector,
select the first block satisfying `ajuste` (first fit); on an exact fit
rename it in place, otherwise insert the new process block before the
shrunk free remainder.  `none` models "iterator reached `end()`". -/
def cargarAux (nombre : String) (tam : Int) : List Bloque → Option (List Bloque)
  | [] => none
  | b :: bs =>
    if ajuste tam b then
      if b.tam = tam then
        some ({ b with nombre := nombre } :: bs)
      else
        some (⟨nombre, b.inicio, tam⟩ :: ⟨LIBRE_BLOCK_NAME, b.inicio + tam, b.tam - tam⟩ :: bs)
    else
      (cargarAux nombre tam bs).map (b :: ·)

/-- `Memoria::cargarProceso(nombre, tamaño)`: validate size, then name,
then run the first-fit search; on failure of any step the state is
returned unchanged. -/
def Memoria.cargarProceso (m : Memoria) (nombre : String) (tam : Int) :
    Memoria × CargarResult :=
  if tam ≤ 0 then (m, .invalidSize)
  else if nombre = LIBRE_BLOCK_NAME then (m, .reservedName)
  else
    match cargarAux nombre tam m.bloques with
    | some bs => ({ m with bloques := bs }, .cargado)
    | none => (m, .insufficientSpace)

/-- The `find_if` + rename of `liberarProceso`: locate the first block
whose `nombre` matches and reset its owner to the free sentinel. -/
def liberarAux (nombre : String) : List Bloque → Option (List Bloque)
  | [] => none
  | b :: bs =>
    if b.nombre = nombre then
      some ({ b with nombre := LIBRE_BLOCK_NAME } :: bs)
    else
      (liberarAux nombre bs).map (b :: ·)

/-- The merge loop of `Memoria::compactarEspaciosLibresAdyacentes`:
`ultimo` plays the role of `bloques_fusionados.back()`; when it and the
current block are both free their sizes are added, otherwise `ultimo` is
emitted and the current block becomes the new accumulator. -/
def compactarLibresAux (ultimo : Bloque) : List Bloque → List Bloque
  | [] => [ultimo]
  | actual :: rest =>
    if ultimo.nombre = LIBRE_BLOCK_NAME ∧ actual.nombre = LIBRE_BLOCK_NAME then
      compactarLibresAux { ultimo with tam := ultimo.tam + actual.tam } rest
    else
      ultimo :: compactarLibresAux actual rest

/-- `Memoria::compactarEspaciosLibresAdyacentes()` on the block list:
an empty list is returned unchanged, otherwise the merge loop runs
seeded with the first block. -/
def compactarEspaciosLibresAdyacentes : List Bloque → List Bloque
  | [] => []
  | b :: bs => compactarLibresAux b bs

/-- `Memoria::liberarProceso(nombre)`: reject the free sentinel, search
for the block, and on a match rename it free and coalesce adjacent free
blocks; otherwise the state is unchanged. -/
def Memoria.liberarProceso (m : Memoria) (nombre : String) :
    Memoria × LiberarResult :=
  if nombre = LIBRE_BLOCK_NAME then (m, .reservedName)
  else
    match liberarAux nombre m.bloques with
    | some bs => ({ m with bloques := compactarEspaciosLibresAdyacentes bs }, .liberado)
    | none => (m, .notFound)

/-- The placement loop of `compactarMemoriaFisica`: free blocks are
skipped, occupied blocks are re-placed at the running cursor
`puntero_actual`.  Returns the re-placed list and the final cursor. -/
def compactarLoop (puntero : Int) : List Bloque → List Bloque × Int
  | [] => ([], puntero)
  | b :: bs =>
    if b.nombre = LIBRE_BLOCK_NAME then
      compactarLoop puntero bs
    else
      let r := compactarLoop (puntero + b.tam) bs
      (⟨b.nombre, puntero, b.tam⟩ :: r.1, r.2)

/-- `Memoria::compactarMemoriaFisica()`: re-place all occupied blocks at
the front, then append a single trailing free block when the cursor has
not reached the capacity; the `else if` branch reproduces the source's
(unreachable for positive capacity) fallback for an all-free memory.
The `espacio_libre_total` accumulator of the source is omitted: it is
only read in a branch whose body is empty. -/
def Memoria.compactarMemoriaFisica (m : Memoria) : Memoria :=
  let r := compactarLoop 0 m.bloques
  let final :=
    if r.2 < m.total_memoria then
      r.1 ++ [⟨LIBRE_BLOCK_NAME, r.2, m.total_memoria - r.2⟩]
    else if r.1 = [] ∧ 0 < m.total_memoria then
      [⟨LIBRE_BLOCK_NAME, 0, m.total_memoria⟩]
    else
      r.1
  { m with bloques := final }

/-- `frag_externa` in `Memoria::calcularFragmentacionExterna`: the
`accumulate` of the sizes of free blocks — the spec's `TotalFree()`. -/
def Memoria.fragExterna (m : Memoria) : Int :=
  m.bloques.foldl (fun sum b => if b.nombre = LIBRE_BLOCK_NAME then sum + b.tam else sum) 0

/-- `num_bloques_libres` in `calcularFragmentacionExterna`: the
`count_if` of free blocks of positive size — the spec's
`FreeBlockCount()`. -/
def Memoria.numBloquesLibres (m : Memoria) : Nat :=
  (m.bloques.filter (fun b => b.nombre = LIBRE_BLOCK_NAME ∧ 0 < b.tam)).length

/-- One mutating call of the public interface. -/
inductive Op where
  | cargar (nombre : String) (tam : Int)
  | liberar (nombre : String)
  | compactar
  deriving Repr, DecidableEq

/-- Execute one operation (discarding the reported outcome). -/
def Memoria.step (m : Memoria) : Op → Memoria
  | .cargar n t => (m.cargarProceso n t).1
  | .liberar n => (m.liberarProceso n).1
  | .compactar => m.compactarMemoriaFisica

/-- Execute a sequence of operations. -/
def Memoria.run (m : Memoria) : List Op → Memoria
  | [] => m
  | op :: ops => (m.step op).run ops

/-- A state is reachable when some call sequence from a freshly
constructed `Memoria` produces it. -/
def Reachable (m : Memoria) : Prop :=
  ∃ size ops, m = (Memoria.init size).run ops

/-! ## The spec's invariants (spec §3) -/

/-- Invariants 1 and 2: the blocks tile the half-open range
`[off, stop)` — each block starts where the previous one ended, the
first starts at `off` and the last ends at `stop`. -/
def tile : Int → List Bloque → Int → Prop
  | off, [], stop => off = stop
  | off, b :: bs, stop => b.inicio = off ∧ tile (off + b.tam) bs stop

instance decTile : (off : Int) → (l : List Bloque) → (stop : Int) → Decidable (tile off l stop)
  | off, [], stop => inferInstanceAs (Decidable (off = stop))
  | off, b :: bs, stop =>
    have : Decidable (tile (off + b.tam) bs stop) := decTile _ bs _
    inferInstanceAs (Decidable (b.inicio = off ∧ tile (off + b.tam) bs stop))

/-- Invariant 3: no two adjacent blocks are both free. -/
def sinLibresAdyacentes (l : List Bloque) : Prop :=
  l.Chain' fun a b => ¬(a.nombre = LIBRE_BLOCK_NAME ∧ b.nombre = LIBRE_BLOCK_NAME)

instance decChainLibre : (a : Bloque) → (l : List Bloque) →
    Decidable (List.Chain (fun a b : Bloque =>
      ¬(a.nombre = LIBRE_BLOCK_NAME ∧ b.nombre = LIBRE_BLOCK_NAME)) a l)
  | _, [] => isTrue List.Chain.nil
  | _, b :: l =>
    have : Decidable (List.Chain (fun a b : Bloque =>
        ¬(a.nombre = LIBRE_BLOCK_NAME ∧ b.nombre = LIBRE_BLOCK_NAME)) b l) :=
      decChainLibre b l
    decidable_of_iff _ List.chain_cons.symm

instance : (l : List Bloque) → Decidable (sinLibresAdyacentes l)
  | [] => isTrue List.chain'_nil
  | b :: bs => inferInstanceAs (Decidable (List.Chain (fun a b : Bloque =>
      ¬(a.nombre = LIBRE_BLOCK_NAME ∧ b.nombre = LIBRE_BLOCK_NAME)) b bs))

/-- The occupied (non-free) blocks, in order. -/
def ocupados (l : List Bloque) : List Bloque :=
  l.filter fun b => ¬ b.nombre = LIBRE_BLOCK_NAME

/-- Invariant 4: no non-free owner labels two blocks. -/
def duenosUnicos (l : List Bloque) : Prop :=
  ((ocupados l).map Bloque.nombre).Nodup

instance (l : List Bloque) : Decidable (duenosUnicos l) :=
  inferInstanceAs (Decidable (((ocupados l).map Bloque.nombre).Nodup))

/-- Invariant 5: every block has positive length. -/
def tamPositivos (l : List Bloque) : Prop :=
  ∀ b ∈ l, 0 < b.tam

instance (l : List Bloque) : Decidable (tamPositivos l) :=
  List.decidableBAll _ l

/-- The invariants that actually hold in every reachable state:
positive capacity, invariants 1-2 (`tile`), invariant 3
(`sinLibresAdyacentes`) and invariant 5 (`tamPositivos`).
Invariant 4 (`duenosUnicos`) fails on duplicate-owner allocation and is
treated separately. -/
def WF (m : Memoria) : Prop :=
  0 < m.total_memoria ∧
  tile 0 m.bloques m.total_memoria ∧
  sinLibresAdyacentes m.bloques ∧
  tamPositivos m.bloques

instance (m : Memoria) : Decidable (WF m) :=
  inferInstanceAs (Decidable (0 < m.total_memoria ∧
    tile 0 m.bloques m.total_memoria ∧
    sinLibresAdyacentes m.bloques ∧
    tamPositivos m.bloques))

/-- What `cargarProceso` puts in place of the selected free block:
an in-place rename on an exact fit, the new block followed by the
shrunk free remainder on a partial fit. -/
def reemplazo (nombre : String) (tam : Int) (b : Bloque) : List Bloque :=
  if b.tam = tam then
    [{ b with nombre := nombre }]
  else
    [⟨nombre, b.inicio, tam⟩, ⟨LIBRE_BLOCK_NAME, b.inicio + tam, b.tam - tam⟩]

/-! ## Lemmas about `tile` -/

theorem tile_nil {off stop : Int} : tile off [] stop ↔ off = stop := Iff.rfl

theorem tile_cons {off stop : Int} {b : Bloque} {bs : List Bloque} :
    tile off (b :: bs) stop ↔ b.inicio = off ∧ tile (off + b.tam) bs stop := Iff.rfl

theorem tile_append {q p : List Bloque} {off stop : Int} :
    tile off (p ++ q) stop ↔ ∃ mid, tile off p mid ∧ tile mid q stop := by
  induction p generalizing off with
  | nil =>
    constructor
    · intro h; exact ⟨off, rfl, h⟩
    · rintro ⟨mid, h1, h2⟩; cases h1; exact h2
  | cons b bs ih =>
    simp only [List.cons_append, tile_cons]
    constructor
    · rintro ⟨h1, h2⟩
      obtain ⟨mid, h3, h4⟩ := ih.1 h2
      exact ⟨mid, ⟨h1, h3⟩, h4⟩
    · rintro ⟨mid, ⟨h1, h3⟩, h4⟩
      exact ⟨h1, ih.2 ⟨mid, h3, h4⟩⟩

theorem tile_sum :
    ∀ (l : List Bloque) (off stop : Int), tile off l stop →
      off + (l.map Bloque.tam).sum = stop := by
  intro l
  induction l with
  | nil => intro off stop h; simpa [tile_nil] using h
  | cons b bs ih =>
    intro off stop h
    obtain ⟨_, h2⟩ := tile_cons.1 h
    have := ih (off + b.tam) stop h2
    simp only [List.map_cons, List.sum_cons]
    omega

/-! ## Lemmas about `cargarAux` -/

theorem cargarAux_nil {nombre : String} {tam : Int} :
    cargarAux nombre tam [] = none := rfl

theorem cargarAux_cons_fit {nombre : String} {tam : Int} {b : Bloque} {bs : List Bloque}
    (h : ajuste tam b) :
    cargarAux nombre tam (b :: bs) = some (reemplazo nombre tam b ++ bs) := by
  rw [cargarAux, if_pos h, reemplazo]
  by_cases he : b.tam = tam <;> simp [he]

theorem cargarAux_cons_nofit {nombre : String} {tam : Int} {b : Bloque} {bs : List Bloque}
    (h : ¬ ajuste tam b) :
    cargarAux nombre tam (b :: bs) = (cargarAux nombre tam bs).map (b :: ·) := by
  rw [cargarAux, if_neg h]

/-- First-fit success: if a prefix contains no fitting block and is
followed by a fitting one, the scan selects exactly that one. -/
theorem cargarAux_eq_some {nombre : String} {tam : Int} {b : Bloque} {s : List Bloque} :
    ∀ p : List Bloque, (∀ x ∈ p, ¬ ajuste tam x) → ajuste tam b →
      cargarAux nombre tam (p ++ b :: s) = some (p ++ reemplazo nombre tam b ++ s) := by
  intro p
  induction p with
  | nil => intro _ hb; simpa using cargarAux_cons_fit hb
  | cons a p ih =>
    intro hp hb
    have ha : ¬ ajuste tam a := hp a (by simp)
    rw [List.cons_append, cargarAux_cons_nofit ha,
      ih (fun x hx => hp x (by simp [hx])) hb]
    simp

/-- First-fit failure: the scan returns `none` exactly when no block fits. -/
theorem cargarAux_eq_none {nombre : String} {tam : Int} :
    ∀ l : List Bloque, cargarAux nombre tam l = none ↔ ∀ x ∈ l, ¬ ajuste tam x := by
  intro l
  induction l with
  | nil => simp [cargarAux_nil]
  | cons b bs ih =>
    by_cases hb : ajuste tam b
    · rw [cargarAux_cons_fit hb]
      simp only [List.mem_cons]
      constructor
      · intro h; cases h
      · intro h; exact absurd hb (h b (Or.inl rfl))
    · rw [cargarAux_cons_nofit hb]
      rw [show ((cargarAux nombre tam bs).map (b :: ·) = none) ↔
            (cargarAux nombre tam bs = none) from Option.map_eq_none', ih]
      constructor
      · intro h x hx
        rcases List.mem_cons.1 hx with rfl | hx
        · exact hb
        · exact h x hx
      · intro h x hx; exact h x (List.mem_cons.2 (Or.inr hx))

/-- Every successful scan decomposes the list into a non-fitting prefix,
the selected block, and the untouched suffix. -/
theorem cargarAux_decomp {nombre : String} {tam : Int} :
    ∀ {l lr : List Bloque}, cargarAux nombre tam l = some lr →
      ∃ p b s, l = p ++ b :: s ∧ (∀ x ∈ p, ¬ ajuste tam x) ∧ ajuste tam b ∧
        lr = p ++ reemplazo nombre tam b ++ s := by
  intro l
  induction l with
  | nil => intro lr h; simp [cargarAux_nil] at h
  | cons b bs ih =>
    intro lr h
    by_cases hb : ajuste tam b
    · rw [cargarAux_cons_fit hb] at h
      exact ⟨[], b, bs, by simp, by simp, hb, by simpa using h.symm⟩
    · rw [cargarAux_cons_nofit hb] at h
      rcases Option.map_eq_some'.1 h with ⟨lr0, h0, rfl⟩
      obtain ⟨p, c, s, rfl, hp, hc, rfl⟩ := ih h0
      exact ⟨b :: p, c, s, rfl, by
        intro x hx
        rcases List.mem_cons.1 hx with rfl | hx
        · exact hb
        · exact hp x hx, hc, by simp⟩

/-! ## Lemmas about `liberarAux` -/

theorem liberarAux_cons_hit {n : String} {b : Bloque} {bs : List Bloque}
    (h : b.nombre = n) :
    liberarAux n (b :: bs) = some ({ b with nombre := LIBRE_BLOCK_NAME } :: bs) := by
  rw [liberarAux, if_pos h]

theorem liberarAux_cons_miss {n : String} {b : Bloque} {bs : List Bloque}
    (h : ¬ b.nombre = n) :
    liberarAux n (b :: bs) = (liberarAux n bs).map (b :: ·) := by
  rw [liberarAux, if_neg h]

theorem liberarAux_eq_some {n : String} {b : Bloque} {s : List Bloque} :
    ∀ p : List Bloque, (∀ x ∈ p, ¬ x.nombre = n) → b.nombre = n →
      liberarAux n (p ++ b :: s) = some (p ++ { b with nombre := LIBRE_BLOCK_NAME } :: s) := by
  intro p
  induction p with
  | nil => intro _ hb; simpa using liberarAux_cons_hit hb
  | cons a p ih =>
    intro hp hb
    rw [List.cons_append, liberarAux_cons_miss (hp a (by simp)),
      ih (fun x hx => hp x (by simp [hx])) hb]
    simp

theorem liberarAux_eq_none {n : String} :
    ∀ l : List Bloque, liberarAux n l = none ↔ ∀ x ∈ l, ¬ x.nombre = n := by
  intro l
  induction l with
  | nil => simp [liberarAux]
  | cons b bs ih =>
    by_cases hb : b.nombre = n
    · rw [liberarAux_cons_hit hb]
      simp only [List.mem_cons]
      constructor
      · intro h; cases h
      · intro h; exact absurd hb (h b (Or.inl rfl))
    · rw [liberarAux_cons_miss hb]
      rw [show ((liberarAux n bs).map (b :: ·) = none) ↔
            (liberarAux n bs = none) from Option.map_eq_none', ih]
      constructor
      · intro h x hx
        rcases List.mem_cons.1 hx with rfl | hx
        · exact hb
        · exact h x hx
      · intro h x hx; exact h x (List.mem_cons.2 (Or.inr hx))

theorem liberarAux_decomp {n : String} :
    ∀ {l lr : List Bloque}, liberarAux n l = some lr →
      ∃ p b s, l = p ++ b :: s ∧ (∀ x ∈ p, ¬ x.nombre = n) ∧ b.nombre = n ∧
        lr = p ++ { b with nombre := LIBRE_BLOCK_NAME } :: s := by
  intro l
  induction l with
  | nil => intro lr h; simp [liberarAux] at h
  | cons b bs ih =>
    intro lr h
    by_cases hb : b.nombre = n
    · rw [liberarAux_cons_hit hb] at h
      exact ⟨[], b, bs, by simp, by simp, hb, by simpa using h.symm⟩
    · rw [liberarAux_cons_miss hb] at h
      rcases Option.map_eq_some'.1 h with ⟨lr0, h0, rfl⟩
      obtain ⟨p, c, s, rfl, hp, hc, rfl⟩ := ih h0
      exact ⟨b :: p, c, s, rfl, by
        intro x hx
        rcases List.mem_cons.1 hx with rfl | hx
        · exact hb
        · exact hp x hx, hc, by simp⟩

/-! ## Lemmas about the coalescing pass -/

theorem compactarLibresAux_shape :
    ∀ (r : List Bloque) (u : Bloque),
      ∃ t rest, compactarLibresAux u r = ⟨u.nombre, u.inicio, t⟩ :: rest := by
  intro r
  induction r with
  | nil => intro u; exact ⟨u.tam, [], rfl⟩
  | cons actual rest ih =>
    intro u
    by_cases h : u.nombre = LIBRE_BLOCK_NAME ∧ actual.nombre = LIBRE_BLOCK_NAME
    · rw [compactarLibresAux, if_pos h]
      exact ih _
    · rw [compactarLibresAux, if_neg h]
      exact ⟨u.tam, compactarLibresAux actual rest, rfl⟩

theorem compactarLibresAux_chain :
    ∀ (r : List Bloque) (u : Bloque),
      sinLibresAdyacentes (compactarLibresAux u r) := by
  intro r
  induction r with
  | nil => intro u; simp [compactarLibresAux, sinLibresAdyacentes]
  | cons actual rest ih =>
    intro u
    by_cases h : u.nombre = LIBRE_BLOCK_NAME ∧ actual.nombre = LIBRE_BLOCK_NAME
    · rw [compactarLibresAux, if_pos h]
      exact ih _
    · rw [compactarLibresAux, if_neg h]
      obtain ⟨t, rest2, hsh⟩ := compactarLibresAux_shape rest actual
      rw [hsh]
      refine List.chain'_cons.2 ⟨?_, hsh ▸ ih actual⟩
      intro hcontra
      exact h ⟨hcontra.1, hcontra.2⟩

theorem compactarLibresAux_tile :
    ∀ (r : List Bloque) (u : Bloque) (off stop : Int),
      u.inicio = off → tile (off + u.tam) r stop →
      tile off (compactarLibresAux u r) stop := by
  intro r
  induction r with
  | nil =>
    intro u off stop hu ht
    rw [tile_nil] at ht
    exact tile_cons.2 ⟨hu, ht⟩
  | cons actual rest ih =>
    intro u off stop hu ht
    obtain ⟨ha, ht2⟩ := tile_cons.1 ht
    by_cases h : u.nombre = LIBRE_BLOCK_NAME ∧ actual.nombre = LIBRE_BLOCK_NAME
    · rw [compactarLibresAux, if_pos h]
      refine ih _ off stop hu ?_
      have : off + (u.tam + actual.tam) = off + u.tam + actual.tam := by ring
      rw [show ({ u with tam := u.tam + actual.tam } : Bloque).tam
            = u.tam + actual.tam from rfl, this]
      exact ht2
    · rw [compactarLibresAux, if_neg h]
      exact tile_cons.2 ⟨hu, ih actual (off + u.tam) stop ha ht2⟩

theorem compactarLibresAux_pos :
    ∀ (r : List Bloque) (u : Bloque), 0 < u.tam → tamPositivos r →
      tamPositivos (compactarLibresAux u r) := by
  intro r
  induction r with
  | nil =>
    intro u hu _ b hb
    rw [compactarLibresAux] at hb
    rcases List.mem_singleton.1 hb with rfl
    exact hu
  | cons actual rest ih =>
    intro u hu hr
    have hact : 0 < actual.tam := hr actual (by simp)
    have hrest : tamPositivos rest := fun b hb => hr b (by simp [hb])
    by_cases h : u.nombre = LIBRE_BLOCK_NAME ∧ actual.nombre = LIBRE_BLOCK_NAME
    · rw [compactarLibresAux, if_pos h]
      exact ih _ (by simp only []; omega) hrest
    · rw [compactarLibresAux, if_neg h]
      intro b hb
      rcases List.mem_cons.1 hb with rfl | hb
      · exact hu
      · exact ih actual hact hrest b hb

theorem compactarLibresAux_ocupados :
    ∀ (r : List Bloque) (u : Bloque),
      ocupados (compactarLibresAux u r) = ocupados (u :: r) := by
  intro r
  induction r with
  | nil => intro u; rfl
  | cons actual rest ih =>
    intro u
    by_cases h : u.nombre = LIBRE_BLOCK_NAME ∧ actual.nombre = LIBRE_BLOCK_NAME
    · rw [compactarLibresAux, if_pos h, ih]
      simp [ocupados, List.filter, h.1, h.2]
    · rw [compactarLibresAux, if_neg h]
      simp only [ocupados, List.filter_cons] at ih ⊢
      rw [ih]

theorem compactarLibresAux_id :
    ∀ (r : List Bloque) (u : Bloque), sinLibresAdyacentes (u :: r) →
      compactarLibresAux u r = u :: r := by
  intro r
  induction r with
  | nil => intro u _; rfl
  | cons actual rest ih =>
    intro u hch
    obtain ⟨hR, hch2⟩ := List.chain'_cons.1 hch
    rw [compactarLibresAux, if_neg hR, ih actual hch2]

theorem compactarLibresAux_append {b : Bloque} {s : List Bloque} :
    ∀ (p : List Bloque) (u : Bloque), sinLibresAdyacentes (u :: (p ++ [b])) →
      compactarLibresAux u (p ++ b :: s) = u :: (p ++ compactarLibresAux b s) := by
  intro p
  induction p with
  | nil =>
    intro u hch
    obtain ⟨hR, _⟩ := List.chain'_cons.1 hch
    rw [List.nil_append, compactarLibresAux, if_neg hR, List.nil_append]
  | cons a p ih =>
    intro u hch
    obtain ⟨hR, hch2⟩ := List.chain'_cons.1 hch
    rw [List.cons_append, compactarLibresAux, if_neg hR, ih a hch2]
    simp

theorem coalesce_chain (l : List Bloque) :
    sinLibresAdyacentes (compactarEspaciosLibresAdyacentes l) := by
  cases l with
  | nil => simp [compactarEspaciosLibresAdyacentes, sinLibresAdyacentes]
  | cons b bs => exact compactarLibresAux_chain bs b

theorem coalesce_tile {l : List Bloque} {off stop : Int} (h : tile off l stop)
    (hne : l ≠ []) : tile off (compactarEspaciosLibresAdyacentes l) stop := by
  cases l with
  | nil => exact absurd rfl hne
  | cons b bs =>
    obtain ⟨hb, ht⟩ := tile_cons.1 h
    exact compactarLibresAux_tile bs b off stop hb ht

theorem coalesce_pos {l : List Bloque} (h : tamPositivos l) :
    tamPositivos (compactarEspaciosLibresAdyacentes l) := by
  cases l with
  | nil => intro b hb; cases hb
  | cons b bs =>
    exact compactarLibresAux_pos bs b (h b (by simp)) fun x hx => h x (by simp [hx])

theorem coalesce_ocupados (l : List Bloque) :
    ocupados (compactarEspaciosLibresAdyacentes l) = ocupados l := by
  cases l with
  | nil => rfl
  | cons b bs => exact compactarLibresAux_ocupados bs b

theorem coalesce_id {l : List Bloque} (h : sinLibresAdyacentes l) :
    compactarEspaciosLibresAdyacentes l = l := by
  cases l with
  | nil => rfl
  | cons b bs => exact compactarLibresAux_id bs b h

theorem coalesce_append {b : Bloque} {s : List Bloque} :
    ∀ p : List Bloque, sinLibresAdyacentes (p ++ [b]) →
      compactarEspaciosLibresAdyacentes (p ++ b :: s)
        = p ++ compactarLibresAux b s := by
  intro p hch
  cases p with
  | nil => rfl
  | cons a p =>
    rw [List.cons_append, compactarEspaciosLibresAdyacentes,
      compactarLibresAux_append p a (by simpa using hch)]
    simp

/-! ## Lemmas about the compaction placement loop -/

/-- The free blocks, in order. -/
def libres (l : List Bloque) : List Bloque :=
  l.filter fun b => b.nombre = LIBRE_BLOCK_NAME

theorem compactarLoop_map :
    ∀ (l : List Bloque) (p : Int),
      ((compactarLoop p l).1).map (fun b => (b.nombre, b.tam))
        = (ocupados l).map fun b => (b.nombre, b.tam) := by
  intro l
  induction l with
  | nil => intro p; rfl
  | cons b bs ih =>
    intro p
    by_cases h : b.nombre = LIBRE_BLOCK_NAME
    · rw [compactarLoop, if_pos h, ih]
      simp [ocupados, List.filter_cons, h]
    · rw [compactarLoop, if_neg h]
      simp only [List.map_cons, ih]
      simp [ocupados, List.filter_cons, h]

theorem compactarLoop_nonfree :
    ∀ (l : List Bloque) (p : Int), ∀ b ∈ (compactarLoop p l).1,
      ¬ b.nombre = LIBRE_BLOCK_NAME := by
  intro l
  induction l with
  | nil => intro p b hb; cases hb
  | cons c cs ih =>
    intro p b hb
    by_cases h : c.nombre = LIBRE_BLOCK_NAME
    · rw [compactarLoop, if_pos h] at hb
      exact ih p b hb
    · rw [compactarLoop, if_neg h] at hb
      rcases List.mem_cons.1 hb with rfl | hb
      · exact h
      · exact ih _ b hb

theorem compactarLoop_tile :
    ∀ (l : List Bloque) (p : Int),
      tile p (compactarLoop p l).1 (compactarLoop p l).2 := by
  intro l
  induction l with
  | nil => intro p; exact rfl
  | cons b bs ih =>
    intro p
    by_cases h : b.nombre = LIBRE_BLOCK_NAME
    · rw [compactarLoop, if_pos h]
      exact ih p
    · rw [compactarLoop, if_neg h]
      exact tile_cons.2 ⟨rfl, ih (p + b.tam)⟩

theorem compactarLoop_snd :
    ∀ (l : List Bloque) (p : Int),
      (compactarLoop p l).2 = p + ((ocupados l).map Bloque.tam).sum := by
  intro l
  induction l with
  | nil => intro p; simp [compactarLoop, ocupados]
  | cons b bs ih =>
    intro p
    by_cases h : b.nombre = LIBRE_BLOCK_NAME
    · rw [compactarLoop, if_pos h, ih]
      simp [ocupados, List.filter_cons, h]
    · rw [compactarLoop, if_neg h]
      simp only [ih (p + b.tam)]
      simp [ocupados, List.filter_cons, h]
      ring

theorem compactarLoop_pos :
    ∀ (l : List Bloque) (p : Int), tamPositivos l →
      tamPositivos (compactarLoop p l).1 := by
  intro l
  induction l with
  | nil => intro p _ b hb; cases hb
  | cons c cs ih =>
    intro p hl b hb
    have hcs : tamPositivos cs := fun x hx => hl x (by simp [hx])
    by_cases h : c.nombre = LIBRE_BLOCK_NAME
    · rw [compactarLoop, if_pos h] at hb
      exact ih p hcs b hb
    · rw [compactarLoop, if_neg h] at hb
      rcases List.mem_cons.1 hb with rfl | hb
      · exact hl c (by simp)
      · exact ih _ hcs b hb

/-- Re-placing a list of occupied blocks that already sit at the cursor
positions changes nothing. -/
theorem compactarLoop_fixed :
    ∀ (l : List Bloque) (p q : Int), (∀ b ∈ l, ¬ b.nombre = LIBRE_BLOCK_NAME) →
      tile p l q → compactarLoop p l = (l, q) := by
  intro l
  induction l with
  | nil =>
    intro p q _ ht
    rw [tile_nil] at ht
    simp [compactarLoop, ht]
  | cons b bs ih =>
    intro p q hnf ht
    obtain ⟨hb, ht2⟩ := tile_cons.1 ht
    rw [compactarLoop, if_neg (hnf b (by simp)),
      ih (p + b.tam) q (fun x hx => hnf x (by simp [hx])) ht2]
    cases b
    simp at hb
    simp [hb]

/-- A trailing free block is ignored by the placement loop. -/
theorem compactarLoop_append_free {f : Bloque} (hf : f.nombre = LIBRE_BLOCK_NAME) :
    ∀ (l : List Bloque) (p : Int), compactarLoop p (l ++ [f]) = compactarLoop p l := by
  intro l
  induction l with
  | nil =>
    intro p
    simp [compactarLoop, hf]
  | cons b bs ih =>
    intro p
    by_cases h : b.nombre = LIBRE_BLOCK_NAME
    · rw [List.cons_append, compactarLoop, if_pos h, ih, compactarLoop, if_pos h]
    · rw [List.cons_append, compactarLoop, if_neg h, ih, compactarLoop, if_neg h]

/-! ## Sum bookkeeping -/

theorem sum_ocupados_libres :
    ∀ l : List Bloque,
      (l.map Bloque.tam).sum
        = ((ocupados l).map Bloque.tam).sum + ((libres l).map Bloque.tam).sum := by
  intro l
  induction l with
  | nil => simp [ocupados, libres]
  | cons b bs ih =>
    by_cases h : b.nombre = LIBRE_BLOCK_NAME
    · simp [ocupados, libres, List.filter_cons, h] at ih ⊢; omega
    · simp [ocupados, libres, List.filter_cons, h] at ih ⊢; omega

theorem libres_pos_sum {l : List Bloque} (h : tamPositivos l) :
    0 ≤ ((libres l).map Bloque.tam).sum := by
  have : ∀ x ∈ (libres l).map Bloque.tam, 0 ≤ x := by
    intro x hx
    rcases List.mem_map.1 hx with ⟨b, hb, rfl⟩
    exact le_of_lt (h b (List.mem_of_mem_filter hb))
  exact List.sum_nonneg this

theorem fragExterna_eq_sum (m : Memoria) :
    m.fragExterna = ((libres m.bloques).map Bloque.tam).sum := by
  have key : ∀ (l : List Bloque) (a : Int),
      l.foldl (fun sum b => if b.nombre = LIBRE_BLOCK_NAME then sum + b.tam else sum) a
        = a + ((libres l).map Bloque.tam).sum := by
    intro l
    induction l with
    | nil => intro a; simp [libres]
    | cons b bs ih =>
      intro a
      by_cases h : b.nombre = LIBRE_BLOCK_NAME
      · simp [libres, List.filter_cons, h, List.foldl_cons, ih]; ring
      · simp [libres, List.filter_cons, h, List.foldl_cons, ih]
  have := key m.bloques 0
  simpa [Memoria.fragExterna] using this

/-! ## Preservation of the invariants -/

/-- The no-adjacent-free relation holds whenever the left block is occupied. -/
theorem rel_of_nonfree_left {a b : Bloque} (h : ¬ a.nombre = LIBRE_BLOCK_NAME) :
    ¬(a.nombre = LIBRE_BLOCK_NAME ∧ b.nombre = LIBRE_BLOCK_NAME) :=
  fun hc => h hc.1

/-- The no-adjacent-free relation holds whenever the right block is occupied. -/
theorem rel_of_nonfree_right {a b : Bloque} (h : ¬ b.nombre = LIBRE_BLOCK_NAME) :
    ¬(a.nombre = LIBRE_BLOCK_NAME ∧ b.nombre = LIBRE_BLOCK_NAME) :=
  fun hc => h hc.2

/-- A list of occupied blocks trivially has no adjacent free pair. -/
theorem chain_of_nonfree {l : List Bloque}
    (h : ∀ b ∈ l, ¬ b.nombre = LIBRE_BLOCK_NAME) : sinLibresAdyacentes l := by
  induction l with
  | nil => exact List.chain'_nil
  | cons b bs ih =>
    refine List.chain'_cons'.2 ⟨?_, ih fun x hx => h x (by simp [hx])⟩
    intro y _
    exact rel_of_nonfree_left (h b (by simp))

theorem tile_reemplazo {n : String} {t : Int} {b : Bloque} {s : List Bloque}
    {mid total : Int} (hb : b.inicio = mid)
    (hs : tile (mid + b.tam) s total) :
    tile mid (reemplazo n t b ++ s) total := by
  unfold reemplazo
  by_cases he : b.tam = t
  · rw [if_pos he, List.cons_append, List.nil_append]
    exact tile_cons.2 ⟨hb, hs⟩
  · rw [if_neg he]
    refine tile_cons.2 ⟨hb, tile_cons.2 ⟨by simp [hb], ?_⟩⟩
    have : mid + t + (b.tam - t) = mid + b.tam := by ring
    rw [show (⟨LIBRE_BLOCK_NAME, b.inicio + t, b.tam - t⟩ : Bloque).tam = b.tam - t from rfl,
      this]
    exact hs

theorem pos_reemplazo {n : String} {t : Int} {b : Bloque}
    (ha : ajuste t b) (ht : 0 < t) (hb : 0 < b.tam) :
    tamPositivos (reemplazo n t b) := by
  unfold reemplazo
  by_cases he : b.tam = t
  · rw [if_pos he]
    intro x hx
    rcases List.mem_singleton.1 hx with rfl
    exact hb
  · rw [if_neg he]
    intro x hx
    have hlt : t < b.tam := lt_of_le_of_ne ha.2 (fun hh => he hh.symm)
    rcases List.mem_cons.1 hx with rfl | hx
    · exact ht
    · rcases List.mem_singleton.1 hx with rfl
      simp only []
      omega

/-- Loading into a well-formed list preserves invariants 1, 2, 3, 5. -/
theorem cargarAux_wfparts {l lr : List Bloque} {n : String} {t : Int} {total : Int}
    (hn : ¬ n = LIBRE_BLOCK_NAME) (ht : 0 < t)
    (hc : cargarAux n t l = some lr)
    (htile : tile 0 l total) (hch : sinLibresAdyacentes l) (hpos : tamPositivos l) :
    tile 0 lr total ∧ sinLibresAdyacentes lr ∧ tamPositivos lr := by
  obtain ⟨p, b, s, rfl, hp, hb, rfl⟩ := cargarAux_decomp hc
  obtain ⟨mid, htp, hts⟩ := tile_append.1 htile
  obtain ⟨hbi, hts2⟩ := tile_cons.1 hts
  have hbfree : b.nombre = LIBRE_BLOCK_NAME := hb.1
  refine ⟨?_, ?_, ?_⟩
  · rw [List.append_assoc]
    exact tile_append.2 ⟨mid, htp, tile_reemplazo hbi hts2⟩
  · -- no adjacent free blocks
    have hsplit := List.chain'_split.1 hch
    have hpb : sinLibresAdyacentes (p ++ [b]) := hsplit.1
    have hbs : List.Chain'
        (fun a b => ¬(a.nombre = LIBRE_BLOCK_NAME ∧ b.nombre = LIBRE_BLOCK_NAME))
        (b :: s) := hsplit.2
    have hshead : ∀ y ∈ s.head?, ¬ y.nombre = LIBRE_BLOCK_NAME := by
      intro y hy
      have := (List.chain'_cons'.1 hbs).1 y hy
      intro hyl
      exact this ⟨hbfree, hyl⟩
    have hstail : sinLibresAdyacentes s := (List.chain'_cons'.1 hbs).2
    have hplast : ∀ x ∈ p.getLast?, ∀ c : Bloque,
        ¬(x.nombre = LIBRE_BLOCK_NAME ∧ c.nombre = LIBRE_BLOCK_NAME) ∨
          True := fun _ _ _ => Or.inr trivial
    unfold reemplazo
    by_cases he : b.tam = t
    · rw [if_pos he]
      have hnb : ¬ ({ b with nombre := n } : Bloque).nombre = LIBRE_BLOCK_NAME := hn
      unfold sinLibresAdyacentes
      rw [List.append_assoc, List.singleton_append, List.chain'_split]
      constructor
      · rw [List.chain'_append]
        refine ⟨(List.chain'_append.1 hpb).1, List.chain'_singleton _, ?_⟩
        intro x _ y hy
        rcases Option.mem_some_iff.1 hy with rfl
        exact rel_of_nonfree_right hnb
      · exact List.chain'_cons'.2 ⟨fun y hy => rel_of_nonfree_left hnb, hstail⟩
    · rw [if_neg he]
      have hnb : ¬ (⟨n, b.inicio, t⟩ : Bloque).nombre = LIBRE_BLOCK_NAME := hn
      unfold sinLibresAdyacentes
      rw [List.append_assoc, List.cons_append, List.singleton_append,
        List.chain'_split]
      constructor
      · rw [List.chain'_append]
        refine ⟨(List.chain'_append.1 hpb).1, List.chain'_singleton _, ?_⟩
        intro x _ y hy
        rcases Option.mem_some_iff.1 hy with rfl
        exact rel_of_nonfree_right hnb
      · refine List.chain'_cons.2 ⟨rel_of_nonfree_left hnb, ?_⟩
        exact List.chain'_cons'.2 ⟨fun y hy => rel_of_nonfree_right (hshead y hy), hstail⟩
  · intro x hx
    rcases List.mem_append.1 hx with hx | hxs
    · rcases List.mem_append.1 hx with hxp | hxr
      · exact hpos x (by simp [hxp])
      · exact pos_reemplazo hb ht (hpos b (by simp)) x hxr
    · exact hpos x (by simp [hxs])

/-- Marking one block free preserves the tiling and positive lengths;
the coalescing pass then restores invariant 3. -/
theorem liberarAux_wfparts {l lr : List Bloque} {n : String} {total : Int}
    (hc : liberarAux n l = some lr)
    (htile : tile 0 l total) (hpos : tamPositivos l) :
    tile 0 (compactarEspaciosLibresAdyacentes lr) total ∧
    sinLibresAdyacentes (compactarEspaciosLibresAdyacentes lr) ∧
    tamPositivos (compactarEspaciosLibresAdyacentes lr) := by
  obtain ⟨p, b, s, rfl, hp, hb, rfl⟩ := liberarAux_decomp hc
  have htile2 : tile 0 (p ++ { b with nombre := LIBRE_BLOCK_NAME } :: s) total := by
    obtain ⟨mid, htp, hts⟩ := tile_append.1 htile
    obtain ⟨hbi, hts2⟩ := tile_cons.1 hts
    exact tile_append.2 ⟨mid, htp, tile_cons.2 ⟨hbi, hts2⟩⟩
  have hpos2 : tamPositivos (p ++ { b with nombre := LIBRE_BLOCK_NAME } :: s) := by
    intro x hx
    rcases List.mem_append.1 hx with hx | hx
    · exact hpos x (by simp [hx])
    · rcases List.mem_cons.1 hx with rfl | hx
      · exact hpos b (by simp)
      · exact hpos x (by simp [hx])
  exact ⟨coalesce_tile htile2 (by simp), coalesce_chain _, coalesce_pos hpos2⟩

theorem init_wf (size : Int) : WF (Memoria.init size) := by
  unfold Memoria.init WF tamPositivos
  by_cases h : size ≤ 0
  · simp only [h, if_true]
    refine ⟨by norm_num [DEFAULT_TOTAL_MEMORY], ?_, ?_, ?_⟩
    · exact tile_cons.2 ⟨rfl, by simp [tile_nil]⟩
    · exact List.chain'_singleton _
    · intro b hb
      rcases List.mem_singleton.1 hb with rfl
      norm_num [DEFAULT_TOTAL_MEMORY]
  · simp only [h, if_false]
    refine ⟨by omega, ?_, ?_, ?_⟩
    · exact tile_cons.2 ⟨rfl, by simp [tile_nil]⟩
    · exact List.chain'_singleton _
    · intro b hb
      rcases List.mem_singleton.1 hb with rfl
      simp only []
      omega

theorem cargarProceso_wf {m : Memoria} (n : String) (t : Int) (h : WF m) :
    WF (m.cargarProceso n t).1 := by
  obtain ⟨h0, htile, hch, hpos⟩ := h
  unfold Memoria.cargarProceso
  by_cases h1 : t ≤ 0
  · rw [if_pos h1]; exact ⟨h0, htile, hch, hpos⟩
  · rw [if_neg h1]
    by_cases h2 : n = LIBRE_BLOCK_NAME
    · rw [if_pos h2]; exact ⟨h0, htile, hch, hpos⟩
    · rw [if_neg h2]
      cases hc : cargarAux n t m.bloques with
      | none => exact ⟨h0, htile, hch, hpos⟩
      | some bs =>
        obtain ⟨ht1, ht2, ht3⟩ :=
          cargarAux_wfparts h2 (by omega) hc htile hch hpos
        exact ⟨h0, ht1, ht2, ht3⟩

theorem liberarProceso_wf {m : Memoria} (n : String) (h : WF m) :
    WF (m.liberarProceso n).1 := by
  obtain ⟨h0, htile, hch, hpos⟩ := h
  unfold Memoria.liberarProceso
  by_cases h1 : n = LIBRE_BLOCK_NAME
  · rw [if_pos h1]; exact ⟨h0, htile, hch, hpos⟩
  · rw [if_neg h1]
    cases hc : liberarAux n m.bloques with
    | none => exact ⟨h0, htile, hch, hpos⟩
    | some bs =>
      obtain ⟨ht1, ht2, ht3⟩ := liberarAux_wfparts hc htile hpos
      exact ⟨h0, ht1, ht2, ht3⟩

theorem compactar_wf {m : Memoria} (h : WF m) :
    WF m.compactarMemoriaFisica := by
  obtain ⟨h0, htile, _, hpos⟩ := h
  have hsum : (m.bloques.map Bloque.tam).sum = m.total_memoria := by
    have := tile_sum m.bloques 0 m.total_memoria htile
    omega
  have hsnd : (compactarLoop 0 m.bloques).2
      = ((ocupados m.bloques).map Bloque.tam).sum := by
    rw [compactarLoop_snd]; ring
  have hle : (compactarLoop 0 m.bloques).2 ≤ m.total_memoria := by
    have hsplit := sum_ocupados_libres m.bloques
    have hfree := libres_pos_sum hpos
    omega
  have hnf := compactarLoop_nonfree m.bloques 0
  have hlt := compactarLoop_tile m.bloques 0
  have hlpos := compactarLoop_pos m.bloques 0 hpos
  simp only [Memoria.compactarMemoriaFisica]
  by_cases hcase : (compactarLoop 0 m.bloques).2 < m.total_memoria
  · rw [if_pos hcase]
    refine ⟨h0, ?_, ?_, ?_⟩
    · refine tile_append.2 ⟨(compactarLoop 0 m.bloques).2, hlt, ?_⟩
      refine tile_cons.2 ⟨rfl, ?_⟩
      rw [tile_nil]
      simp only []
      ring
    · refine List.chain'_append.2 ⟨chain_of_nonfree hnf, List.chain'_singleton _, ?_⟩
      intro x hx y _
      have hxmem : x ∈ (compactarLoop 0 m.bloques).1 := by
        rcases List.mem_getLast?_eq_getLast hx with ⟨hne, rfl⟩
        exact List.getLast_mem hne
      exact rel_of_nonfree_left (hnf x hxmem)
    · intro b hb
      rcases List.mem_append.1 hb with hb | hb
      · exact hlpos b hb
      · rcases List.mem_singleton.1 hb with rfl
        simp only []
        omega
  · rw [if_neg hcase]
    have ht2 : (compactarLoop 0 m.bloques).2 = m.total_memoria := by omega
    have hnot2 : ¬((compactarLoop 0 m.bloques).1 = [] ∧ 0 < m.total_memoria) := by
      rintro ⟨hemp, hgt⟩
      have := compactarLoop_map m.bloques 0
      rw [hemp] at this
      have hocup : ocupados m.bloques = [] := by
        cases hoc : ocupados m.bloques with
        | nil => rfl
        | cons c cs => rw [hoc] at this; simp at this
      rw [compactarLoop_snd, hocup] at ht2
      simp at ht2
      omega
    rw [if_neg hnot2]
    exact ⟨h0, ht2 ▸ hlt, chain_of_nonfree hnf, hlpos⟩

theorem step_wf {m : Memoria} (op : Op) (h : WF m) : WF (m.step op) := by
  cases op with
  | cargar n t => exact cargarProceso_wf n t h
  | liberar n => exact liberarProceso_wf n h
  | compactar => exact compactar_wf h

theorem run_wf {m : Memoria} (ops : List Op) (h : WF m) : WF (m.run ops) := by
  induction ops generalizing m with
  | nil => exact h
  | cons op ops ih => exact ih (step_wf op h)

theorem reachable_wf {m : Memoria} (h : Reachable m) : WF m := by
  obtain ⟨size, ops, rfl⟩ := h
  exact run_wf ops (init_wf size)

/-! ## Further bookkeeping helpers -/

theorem ocupados_append (l1 l2 : List Bloque) :
    ocupados (l1 ++ l2) = ocupados l1 ++ ocupados l2 := by
  simp [ocupados, List.filter_append]

theorem ocupados_eq_self {l : List Bloque}
    (h : ∀ b ∈ l, ¬ b.nombre = LIBRE_BLOCK_NAME) : ocupados l = l := by
  rw [ocupados, List.filter_eq_self]
  intro b hb
  simpa using h b hb

theorem libres_append (l1 l2 : List Bloque) :
    libres (l1 ++ l2) = libres l1 ++ libres l2 := by
  simp [libres, List.filter_append]

theorem libres_eq_nil {l : List Bloque}
    (h : ∀ b ∈ l, ¬ b.nombre = LIBRE_BLOCK_NAME) : libres l = [] := by
  rw [libres, List.filter_eq_nil_iff]
  intro b hb
  simpa using h b hb

/-- The second branch of `compactarMemoriaFisica` is dead code: the final
block list is the re-placed occupied blocks, followed by one free block
exactly when the cursor stopped short of the capacity. -/
theorem compact_bloques_cases (m : Memoria) :
    (m.compactarMemoriaFisica).bloques =
      if (compactarLoop 0 m.bloques).2 < m.total_memoria then
        (compactarLoop 0 m.bloques).1
          ++ [⟨LIBRE_BLOCK_NAME, (compactarLoop 0 m.bloques).2,
               m.total_memoria - (compactarLoop 0 m.bloques).2⟩]
      else
        (compactarLoop 0 m.bloques).1 := by
  simp only [Memoria.compactarMemoriaFisica]
  by_cases hcase : (compactarLoop 0 m.bloques).2 < m.total_memoria
  · rw [if_pos hcase, if_pos hcase]
  · rw [if_neg hcase, if_neg hcase]
    have hnot2 : ¬((compactarLoop 0 m.bloques).1 = [] ∧ 0 < m.total_memoria) := by
      rintro ⟨hemp, hgt⟩
      have hmap := compactarLoop_map m.bloques 0
      rw [hemp] at hmap
      have hocup : ocupados m.bloques = [] := by
        cases hoc : ocupados m.bloques with
        | nil => rfl
        | cons c cs => rw [hoc] at hmap; simp at hmap
      have hsnd := compactarLoop_snd m.bloques 0
      rw [hocup] at hsnd
      simp at hsnd
      omega
    rw [if_neg hnot2]

theorem compact_total (m : Memoria) :
    (m.compactarMemoriaFisica).total_memoria = m.total_memoria := rfl

/-- Compaction keeps the occupied blocks, as (owner, length) pairs,
in the same order. -/
theorem compact_ocupados_map (m : Memoria) :
    ((ocupados (m.compactarMemoriaFisica).bloques).map fun b => (b.nombre, b.tam))
      = (ocupados m.bloques).map fun b => (b.nombre, b.tam) := by
  rw [compact_bloques_cases]
  have hself := ocupados_eq_self (compactarLoop_nonfree m.bloques 0)
  by_cases hcase : (compactarLoop 0 m.bloques).2 < m.total_memoria
  · rw [if_pos hcase, ocupados_append, hself]
    have : ocupados [(⟨LIBRE_BLOCK_NAME, (compactarLoop 0 m.bloques).2,
        m.total_memoria - (compactarLoop 0 m.bloques).2⟩ : Bloque)] = [] := by
      simp [ocupados, List.filter]
    rw [this, List.append_nil]
    exact compactarLoop_map m.bloques 0
  · rw [if_neg hcase, hself]
    exact compactarLoop_map m.bloques 0

/-- After compaction there is at most one (positive-length) free block. -/
theorem compact_numLibres (m : Memoria) :
    (m.compactarMemoriaFisica).numBloquesLibres ≤ 1 := by
  unfold Memoria.numBloquesLibres
  rw [compact_bloques_cases]
  have hfil : (compactarLoop 0 m.bloques).1.filter
      (fun b => b.nombre = LIBRE_BLOCK_NAME ∧ 0 < b.tam) = [] := by
    rw [List.filter_eq_nil_iff]
    intro b hb
    have := compactarLoop_nonfree m.bloques 0 b hb
    simp [this]
  by_cases hcase : (compactarLoop 0 m.bloques).2 < m.total_memoria
  · rw [if_pos hcase, List.filter_append, hfil, List.nil_append]
    exact le_trans (List.length_filter_le _ _) (by simp)
  · rw [if_neg hcase, hfil]
    simp

/-- `cargarProceso` reports `cargado` exactly when validation passed and
the first-fit scan found a block. -/
theorem cargarProceso_cargado {m : Memoria} {n : String} {t : Int}
    (h : (m.cargarProceso n t).2 = .cargado) :
    0 < t ∧ ¬ n = LIBRE_BLOCK_NAME ∧
      ∃ bs, cargarAux n t m.bloques = some bs ∧
        (m.cargarProceso n t).1 = { m with bloques := bs } := by
  unfold Memoria.cargarProceso at h ⊢
  by_cases h1 : t ≤ 0
  · rw [if_pos h1] at h; cases h
  · rw [if_neg h1] at h ⊢
    by_cases h2 : n = LIBRE_BLOCK_NAME
    · rw [if_pos h2] at h; cases h
    · rw [if_neg h2] at h ⊢
      cases hc : cargarAux n t m.bloques with
      | none => rw [hc] at h; cases h
      | some bs => exact ⟨by omega, h2, bs, rfl, rfl⟩

/-- `liberarProceso` reports `liberado` exactly when the owner was found;
the new block list is the coalesced renamed list. -/
theorem liberarProceso_liberado {m : Memoria} {n : String}
    (h : (m.liberarProceso n).2 = .liberado) :
    ¬ n = LIBRE_BLOCK_NAME ∧
      ∃ bs, liberarAux n m.bloques = some bs ∧
        (m.liberarProceso n).1
          = { m with bloques := compactarEspaciosLibresAdyacentes bs } := by
  unfold Memoria.liberarProceso at h ⊢
  by_cases h1 : n = LIBRE_BLOCK_NAME
  · rw [if_pos h1] at h; cases h
  · rw [if_neg h1] at h ⊢
    cases hc : liberarAux n m.bloques with
    | none => rw [hc] at h; cases h
    | some bs => exact ⟨h1, bs, rfl, rfl⟩

/-- In a tiling with positive lengths, every block starts at or after
the base offset. -/
theorem tile_le_inicio :
    ∀ (l : List Bloque) (off stop : Int), tile off l stop → tamPositivos l →
      ∀ x ∈ l, off ≤ x.inicio := by
  intro l
  induction l with
  | nil => intro off stop _ _ x hx; cases hx
  | cons b bs ih =>
    intro off stop ht hpos x hx
    obtain ⟨hb, ht2⟩ := tile_cons.1 ht
    rcases List.mem_cons.1 hx with rfl | hx
    · omega
    · have := ih (off + b.tam) stop ht2 (fun y hy => hpos y (by simp [hy])) x hx
      have hbp : 0 < b.tam := hpos b (by simp)
      omega

/-- A tiling with positive lengths is strictly sorted by start offset. -/
theorem tile_pairwise :
    ∀ (l : List Bloque) (off stop : Int), tile off l stop → tamPositivos l →
      List.Pairwise (fun a b => a.inicio < b.inicio) l := by
  intro l
  induction l with
  | nil => intro off stop _ _; exact List.Pairwise.nil
  | cons b bs ih =>
    intro off stop ht hpos
    obtain ⟨hb, ht2⟩ := tile_cons.1 ht
    have hpos2 : tamPositivos bs := fun y hy => hpos y (by simp [hy])
    refine List.Pairwise.cons ?_ (ih (off + b.tam) stop ht2 hpos2)
    intro x hx
    have := tile_le_inicio bs (off + b.tam) stop ht2 hpos2 x hx
    have hbp : 0 < b.tam := hpos b (by simp)
    omega

/-- Filtering on an occupied owner ignores free blocks. -/
theorem filter_name_ocupados {nm : String} (hnm : ¬ nm = LIBRE_BLOCK_NAME) :
    ∀ l : List Bloque,
      l.filter (fun b => b.nombre = nm) = (ocupados l).filter fun b => b.nombre = nm := by
  intro l
  rw [ocupados, List.filter_filter]
  apply List.filter_congr
  intro b _
  by_cases hb : b.nombre = nm
  · have hbo : ¬ b.nombre = LIBRE_BLOCK_NAME := by rw [hb]; exact hnm
    simp [hb, hbo, hnm]
  · simp [hb]

/-- Coalescing free blocks does not touch the blocks of an occupied owner. -/
theorem coalesce_filter_name {nm : String} (hnm : ¬ nm = LIBRE_BLOCK_NAME)
    (l : List Bloque) :
    (compactarEspaciosLibresAdyacentes l).filter (fun b => b.nombre = nm)
      = l.filter fun b => b.nombre = nm := by
  rw [filter_name_ocupados hnm, coalesce_ocupados, ← filter_name_ocupados hnm]

/-! ## The claims -/

/-- C1 (amended): for every sequence of Allocate, Release and Compact
calls starting from a freshly constructed Region, the block list
satisfies invariants 1, 2, 3 and 5: blocks in strictly increasing offset
order with no gaps or overlaps covering `[0, capacity)`, no two adjacent
FREE blocks, and every block of positive length.  Invariant 4 (at most
one block per non-FREE owner) does not hold in general — see the
counterexample — because Allocate never checks for a duplicate owner. -/
theorem C1_invariantes (size : Int) (ops : List Op) :
    tile 0 ((Memoria.init size).run ops).bloques
        ((Memoria.init size).run ops).total_memoria ∧
    sinLibresAdyacentes ((Memoria.init size).run ops).bloques ∧
    tamPositivos ((Memoria.init size).run ops).bloques := by
  have h := run_wf ops (init_wf size)
  exact ⟨h.2.1, h.2.2.1, h.2.2.2⟩

/-- C1 counterexample: after `Allocate("A",10); Allocate("A",10)` on a
fresh Region of capacity 64 — a legal call sequence — two blocks carry
the owner `"A"`, so invariant 4 fails. -/
theorem C1_contraejemplo :
    ¬ duenosUnicos ((Memoria.init 64).run
      [Op.cargar "A" 10, Op.cargar "A" 10]).bloques := by
  decide

/-- C2: Allocate scans in ascending offset order and selects the first
FREE block at least as long as the request; on an exact fit the block is
renamed in place, on a partial fit the new block is inserted before the
shrunk free remainder, whose offset advances and whose length decreases
by the requested length. -/
theorem C2_primer_ajuste (m : Memoria) (n : String) (t : Int)
    (p s : List Bloque) (b : Bloque)
    (ht : 0 < t) (hn : ¬ n = LIBRE_BLOCK_NAME)
    (hdec : m.bloques = p ++ b :: s)
    (hp : ∀ x ∈ p, ¬(x.nombre = LIBRE_BLOCK_NAME ∧ t ≤ x.tam))
    (hbfree : b.nombre = LIBRE_BLOCK_NAME) (hbt : t ≤ b.tam) :
    (m.cargarProceso n t).2 = CargarResult.cargado ∧
    (m.cargarProceso n t).1.bloques =
      p ++ (if b.tam = t then [{ b with nombre := n }]
            else [⟨n, b.inicio, t⟩, ⟨LIBRE_BLOCK_NAME, b.inicio + t, b.tam - t⟩])
        ++ s := by
  have hsome : cargarAux n t m.bloques = some (p ++ reemplazo n t b ++ s) := by
    rw [hdec]; exact cargarAux_eq_some p hp ⟨hbfree, hbt⟩
  unfold Memoria.cargarProceso
  rw [if_neg (by omega), if_neg hn, hsome]
  exact ⟨rfl, rfl⟩

theorem C2_primer_ajuste_witness :
    ((Memoria.mk [⟨"B", 0, 4⟩, ⟨"Libre", 4, 1⟩, ⟨"Libre", 5, 7⟩] 12).cargarProceso
        "A" 3).2 = CargarResult.cargado ∧
    ((Memoria.mk [⟨"B", 0, 4⟩, ⟨"Libre", 4, 1⟩, ⟨"Libre", 5, 7⟩] 12).cargarProceso
        "A" 3).1.bloques =
      [⟨"B", 0, 4⟩, ⟨"Libre", 4, 1⟩]
        ++ (if (⟨"Libre", 5, 7⟩ : Bloque).tam = 3 then
              [{ (⟨"Libre", 5, 7⟩ : Bloque) with nombre := "A" }]
            else [⟨"A", 5, 3⟩, ⟨LIBRE_BLOCK_NAME, 5 + 3, 7 - 3⟩])
        ++ [] :=
  C2_primer_ajuste (Memoria.mk [⟨"B", 0, 4⟩, ⟨"Libre", 4, 1⟩, ⟨"Libre", 5, 7⟩] 12)
    "A" 3 [⟨"B", 0, 4⟩, ⟨"Libre", 4, 1⟩] [] ⟨"Libre", 5, 7⟩
    (by decide) (by decide) rfl (by decide) rfl (by decide)

/-- C3: Allocate reports InvalidSize on a non-positive length,
ReservedName when the owner is the free sentinel, and InsufficientSpace
when no free block is large enough, and in all three error cases the
state (block list and capacity) is returned unchanged. -/
theorem C3_errores_carga (m : Memoria) (n : String) (t : Int) :
    (t ≤ 0 → m.cargarProceso n t = (m, CargarResult.invalidSize)) ∧
    (0 < t → n = LIBRE_BLOCK_NAME →
      m.cargarProceso n t = (m, CargarResult.reservedName)) ∧
    (0 < t → ¬ n = LIBRE_BLOCK_NAME →
      (∀ b ∈ m.bloques, ¬(b.nombre = LIBRE_BLOCK_NAME ∧ t ≤ b.tam)) →
      m.cargarProceso n t = (m, CargarResult.insufficientSpace)) := by
  refine ⟨?_, ?_, ?_⟩
  · intro h
    unfold Memoria.cargarProceso
    rw [if_pos h]
  · intro h1 h2
    unfold Memoria.cargarProceso
    rw [if_neg (by omega), if_pos h2]
  · intro h1 h2 h3
    have hnone : cargarAux n t m.bloques = none := (cargarAux_eq_none m.bloques).2 h3
    unfold Memoria.cargarProceso
    rw [if_neg (by omega), if_neg h2, hnone]

theorem C3_errores_carga_witness :
    (Memoria.init 64).cargarProceso "A" 0 = (Memoria.init 64, CargarResult.invalidSize) ∧
    (Memoria.init 64).cargarProceso "Libre" 5
      = (Memoria.init 64, CargarResult.reservedName) ∧
    (Memoria.init 64).cargarProceso "A" 100
      = (Memoria.init 64, CargarResult.insufficientSpace) :=
  ⟨(C3_errores_carga (Memoria.init 64) "A" 0).1 (by decide),
   (C3_errores_carga (Memoria.init 64) "Libre" 5).2.1 (by decide) rfl,
   (C3_errores_carga (Memoria.init 64) "A" 100).2.2 (by decide) (by decide) (by decide)⟩

/-- C4: Release reports ReservedName for the free sentinel and NotFound
for an absent owner, leaving the state unchanged in both cases; when a
block with that owner exists its owner is reset to FREE, the
adjacent-free coalescing pass runs, and no two adjacent FREE blocks
remain afterwards. -/
theorem C4_liberar (m : Memoria) (n : String) :
    (n = LIBRE_BLOCK_NAME → m.liberarProceso n = (m, LiberarResult.reservedName)) ∧
    (¬ n = LIBRE_BLOCK_NAME → (∀ b ∈ m.bloques, ¬ b.nombre = n) →
      m.liberarProceso n = (m, LiberarResult.notFound)) ∧
    (∀ p b s, ¬ n = LIBRE_BLOCK_NAME → m.bloques = p ++ b :: s →
      (∀ x ∈ p, ¬ x.nombre = n) → b.nombre = n →
      (m.liberarProceso n).2 = LiberarResult.liberado ∧
      (m.liberarProceso n).1.bloques
        = compactarEspaciosLibresAdyacentes
            (p ++ { b with nombre := LIBRE_BLOCK_NAME } :: s) ∧
      sinLibresAdyacentes (m.liberarProceso n).1.bloques) := by
  refine ⟨?_, ?_, ?_⟩
  · intro h
    unfold Memoria.liberarProceso
    rw [if_pos h]
  · intro h1 h2
    have hnone : liberarAux n m.bloques = none := (liberarAux_eq_none m.bloques).2 h2
    unfold Memoria.liberarProceso
    rw [if_neg h1, hnone]
  · intro p b s h1 hdec hp hb
    have hsome : liberarAux n m.bloques
        = some (p ++ { b with nombre := LIBRE_BLOCK_NAME } :: s) := by
      rw [hdec]; exact liberarAux_eq_some p hp hb
    unfold Memoria.liberarProceso
    rw [if_neg h1, hsome]
    exact ⟨rfl, rfl, coalesce_chain _⟩

theorem C4_liberar_witness :
    (Memoria.mk [⟨"A", 0, 10⟩, ⟨"B", 10, 10⟩, ⟨"Libre", 20, 44⟩] 64).liberarProceso
        "Libre" = (Memoria.mk [⟨"A", 0, 10⟩, ⟨"B", 10, 10⟩, ⟨"Libre", 20, 44⟩] 64,
          LiberarResult.reservedName) ∧
    (Memoria.mk [⟨"A", 0, 10⟩, ⟨"B", 10, 10⟩, ⟨"Libre", 20, 44⟩] 64).liberarProceso
        "C" = (Memoria.mk [⟨"A", 0, 10⟩, ⟨"B", 10, 10⟩, ⟨"Libre", 20, 44⟩] 64,
          LiberarResult.notFound) ∧
    (((Memoria.mk [⟨"A", 0, 10⟩, ⟨"B", 10, 10⟩, ⟨"Libre", 20, 44⟩] 64).liberarProceso
        "B").2 = LiberarResult.liberado ∧
     ((Memoria.mk [⟨"A", 0, 10⟩, ⟨"B", 10, 10⟩, ⟨"Libre", 20, 44⟩] 64).liberarProceso
        "B").1.bloques
        = compactarEspaciosLibresAdyacentes
            ([⟨"A", 0, 10⟩] ++ { (⟨"B", 10, 10⟩ : Bloque) with
                nombre := LIBRE_BLOCK_NAME } :: [⟨"Libre", 20, 44⟩]) ∧
     sinLibresAdyacentes ((Memoria.mk
        [⟨"A", 0, 10⟩, ⟨"B", 10, 10⟩, ⟨"Libre", 20, 44⟩] 64).liberarProceso
          "B").1.bloques) :=
  ⟨(C4_liberar (Memoria.mk [⟨"A", 0, 10⟩, ⟨"B", 10, 10⟩, ⟨"Libre", 20, 44⟩] 64)
      "Libre").1 rfl,
   (C4_liberar (Memoria.mk [⟨"A", 0, 10⟩, ⟨"B", 10, 10⟩, ⟨"Libre", 20, 44⟩] 64)
      "C").2.1 (by decide) (by decide),
   (C4_liberar (Memoria.mk [⟨"A", 0, 10⟩, ⟨"B", 10, 10⟩, ⟨"Libre", 20, 44⟩] 64)
      "B").2.2 [⟨"A", 0, 10⟩] ⟨"B", 10, 10⟩ [⟨"Libre", 20, 44⟩]
      (by decide) rfl (by decide) rfl⟩

/-- Compacting a compacted state re-places the same blocks at the same
cursor: the placement loop is a no-op on its own output. -/
theorem compactarLoop_of_compact (m : Memoria) :
    compactarLoop 0 (m.compactarMemoriaFisica).bloques
      = ((compactarLoop 0 m.bloques).1, (compactarLoop 0 m.bloques).2) := by
  rw [compact_bloques_cases]
  have hfix := compactarLoop_fixed (compactarLoop 0 m.bloques).1 0
      (compactarLoop 0 m.bloques).2 (compactarLoop_nonfree m.bloques 0)
      (compactarLoop_tile m.bloques 0)
  by_cases hcase : (compactarLoop 0 m.bloques).2 < m.total_memoria
  · rw [if_pos hcase, compactarLoop_append_free rfl, hfix]
  · rw [if_neg hcase, hfix]

/-- C6: Compact is idempotent: compacting twice yields the same state as
compacting once, and the relative order of occupied-block owners is
preserved by each call. -/
theorem C6_compactar_idempotente (m : Memoria) :
    (m.compactarMemoriaFisica).compactarMemoriaFisica = m.compactarMemoriaFisica ∧
    ((ocupados (m.compactarMemoriaFisica).bloques).map Bloque.nombre)
      = (ocupados m.bloques).map Bloque.nombre := by
  constructor
  · apply Memoria.ext
    · rw [compact_bloques_cases (m.compactarMemoriaFisica),
        compactarLoop_of_compact m, compact_total, compact_bloques_cases m]
    · rfl
  · have h := congrArg (List.map Prod.fst) (compact_ocupados_map m)
    simpa [List.map_map, Function.comp] using h

/-- C5: Compact re-places the occupied blocks contiguously from offset 0
in their original relative order, leaves at most one FREE block and only
at the end, covers `[0, capacity)`, produces a single full FREE block
when nothing is occupied, and when free capacity remains it ends with
one FREE block holding exactly the free space. -/
theorem C5_compactar (m : Memoria) (h : Reachable m) :
    ((ocupados (m.compactarMemoriaFisica).bloques).map fun b => (b.nombre, b.tam))
      = ((ocupados m.bloques).map fun b => (b.nombre, b.tam)) ∧
    tile 0 (m.compactarMemoriaFisica).bloques m.total_memoria ∧
    (m.compactarMemoriaFisica).numBloquesLibres ≤ 1 ∧
    (∀ b ∈ (m.compactarMemoriaFisica).bloques.dropLast,
      ¬ b.nombre = LIBRE_BLOCK_NAME) ∧
    (ocupados m.bloques = [] →
      (m.compactarMemoriaFisica).bloques = [⟨LIBRE_BLOCK_NAME, 0, m.total_memoria⟩]) ∧
    (0 < m.fragExterna →
      (m.compactarMemoriaFisica).bloques.getLast?
        = some ⟨LIBRE_BLOCK_NAME, m.total_memoria - m.fragExterna, m.fragExterna⟩) := by
  obtain ⟨h0, htile, hch, hpos⟩ := reachable_wf h
  have hsum : (m.bloques.map Bloque.tam).sum = m.total_memoria := by
    have := tile_sum m.bloques 0 m.total_memoria htile
    omega
  have hsplit := sum_ocupados_libres m.bloques
  have hsnd := compactarLoop_snd m.bloques 0
  have hfrag : m.fragExterna = ((libres m.bloques).map Bloque.tam).sum :=
    fragExterna_eq_sum m
  have hnf := compactarLoop_nonfree m.bloques 0
  refine ⟨compact_ocupados_map m, ?_, compact_numLibres m, ?_, ?_, ?_⟩
  · have hwf := compactar_wf (⟨h0, htile, hch, hpos⟩ : WF m)
    exact hwf.2.1
  · rw [compact_bloques_cases]
    by_cases hcase : (compactarLoop 0 m.bloques).2 < m.total_memoria
    · rw [if_pos hcase, List.dropLast_concat]
      exact hnf
    · rw [if_neg hcase]
      intro b hb
      exact hnf b ((List.dropLast_sublist _).subset hb)
  · intro hocup
    have hmap := compactarLoop_map m.bloques 0
    rw [hocup] at hmap
    have hmap2 : (compactarLoop 0 m.bloques).1.map (fun b => (b.nombre, b.tam)) = [] := by
      simpa using hmap
    have hnil : (compactarLoop 0 m.bloques).1 = [] := List.map_eq_nil_iff.1 hmap2
    have hz : (compactarLoop 0 m.bloques).2 = 0 := by
      rw [hsnd, hocup]
      simp
    rw [compact_bloques_cases, if_pos (by omega), hnil, hz]
    simp
  · intro hfpos
    have hflt : (compactarLoop 0 m.bloques).2 < m.total_memoria := by omega
    rw [compact_bloques_cases, if_pos hflt, List.getLast?_concat]
    have heq : (⟨LIBRE_BLOCK_NAME, (compactarLoop 0 m.bloques).2,
        m.total_memoria - (compactarLoop 0 m.bloques).2⟩ : Bloque)
        = ⟨LIBRE_BLOCK_NAME, m.total_memoria - m.fragExterna, m.fragExterna⟩ :=
      Bloque.ext rfl
        (show (compactarLoop 0 m.bloques).2
            = m.total_memoria - m.fragExterna by omega)
        (show m.total_memoria - (compactarLoop 0 m.bloques).2
            = m.fragExterna by omega)
    rw [heq]

theorem C5_compactar_witness :
    ((ocupados (((Memoria.init 12).run
        [Op.cargar "A" 3]).compactarMemoriaFisica).bloques).map
          fun b => (b.nombre, b.tam))
      = ((ocupados ((Memoria.init 12).run [Op.cargar "A" 3]).bloques).map
          fun b => (b.nombre, b.tam)) ∧
    tile 0 (((Memoria.init 12).run [Op.cargar "A" 3]).compactarMemoriaFisica).bloques
      ((Memoria.init 12).run [Op.cargar "A" 3]).total_memoria ∧
    (((Memoria.init 12).run [Op.cargar "A" 3]).compactarMemoriaFisica).numBloquesLibres
      ≤ 1 ∧
    (∀ b ∈ (((Memoria.init 12).run
        [Op.cargar "A" 3]).compactarMemoriaFisica).bloques.dropLast,
      ¬ b.nombre = LIBRE_BLOCK_NAME) ∧
    (ocupados ((Memoria.init 12).run [Op.cargar "A" 3]).bloques = [] →
      (((Memoria.init 12).run [Op.cargar "A" 3]).compactarMemoriaFisica).bloques
        = [⟨LIBRE_BLOCK_NAME, 0, ((Memoria.init 12).run
            [Op.cargar "A" 3]).total_memoria⟩]) ∧
    (0 < ((Memoria.init 12).run [Op.cargar "A" 3]).fragExterna →
      (((Memoria.init 12).run
          [Op.cargar "A" 3]).compactarMemoriaFisica).bloques.getLast?
        = some ⟨LIBRE_BLOCK_NAME,
            ((Memoria.init 12).run [Op.cargar "A" 3]).total_memoria
              - ((Memoria.init 12).run [Op.cargar "A" 3]).fragExterna,
            ((Memoria.init 12).run [Op.cargar "A" 3]).fragExterna⟩) :=
  C5_compactar ((Memoria.init 12).run [Op.cargar "A" 3])
    ⟨12, [Op.cargar "A" 3], rfl⟩

/-- C9: Compact preserves the total free space and the occupied
(owner, length) sequence of every reachable state. -/
theorem C9_compactar_marco (m : Memoria) (h : Reachable m) :
    (m.compactarMemoriaFisica).fragExterna = m.fragExterna ∧
    ((ocupados (m.compactarMemoriaFisica).bloques).map fun b => (b.nombre, b.tam))
      = (ocupados m.bloques).map fun b => (b.nombre, b.tam) := by
  obtain ⟨h0, htile, hch, hpos⟩ := reachable_wf h
  refine ⟨?_, compact_ocupados_map m⟩
  have hsum : (m.bloques.map Bloque.tam).sum = m.total_memoria := by
    have := tile_sum m.bloques 0 m.total_memoria htile
    omega
  have hsplit := sum_ocupados_libres m.bloques
  have hsnd := compactarLoop_snd m.bloques 0
  have hlibpos := libres_pos_sum hpos
  have hlibnil := libres_eq_nil (compactarLoop_nonfree m.bloques 0)
  rw [fragExterna_eq_sum, fragExterna_eq_sum]
  rw [show (m.compactarMemoriaFisica).bloques
      = _ from compact_bloques_cases m]
  by_cases hcase : (compactarLoop 0 m.bloques).2 < m.total_memoria
  · rw [if_pos hcase, libres_append, hlibnil, List.nil_append]
    have : libres [(⟨LIBRE_BLOCK_NAME, (compactarLoop 0 m.bloques).2,
        m.total_memoria - (compactarLoop 0 m.bloques).2⟩ : Bloque)]
        = [⟨LIBRE_BLOCK_NAME, (compactarLoop 0 m.bloques).2,
            m.total_memoria - (compactarLoop 0 m.bloques).2⟩] := by
      simp [libres, List.filter]
    rw [this]
    simp only [List.map_cons, List.map_nil, List.sum_cons, List.sum_nil]
    omega
  · rw [if_neg hcase, hlibnil]
    simp only [List.map_nil, List.sum_nil]
    omega

theorem C9_compactar_marco_witness :
    (((Memoria.init 12).run [Op.cargar "A" 3]).compactarMemoriaFisica).fragExterna
      = ((Memoria.init 12).run [Op.cargar "A" 3]).fragExterna ∧
    ((ocupados (((Memoria.init 12).run
        [Op.cargar "A" 3]).compactarMemoriaFisica).bloques).map
          fun b => (b.nombre, b.tam))
      = (ocupados ((Memoria.init 12).run [Op.cargar "A" 3]).bloques).map
          fun b => (b.nombre, b.tam) :=
  C9_compactar_marco ((Memoria.init 12).run [Op.cargar "A" 3])
    ⟨12, [Op.cargar "A" 3], rfl⟩

/-- C8 (amended): after any Compact the number of positive-length FREE
blocks is at most 1; after a successful Release no two adjacent FREE
blocks remain, but several disjoint FREE blocks may — the count bound 1
fails there, see the counterexample. -/
theorem C8_bloques_libres (m : Memoria) (n : String) :
    (m.compactarMemoriaFisica).numBloquesLibres ≤ 1 ∧
    ((m.liberarProceso n).2 = LiberarResult.liberado →
      sinLibresAdyacentes (m.liberarProceso n).1.bloques) := by
  refine ⟨compact_numLibres m, ?_⟩
  intro h
  obtain ⟨h1, bs, hb, heq⟩ := liberarProceso_liberado h
  rw [heq]
  exact coalesce_chain bs

theorem C8_bloques_libres_witness :
    (((Memoria.init 64).run [Op.cargar "A" 10,
        Op.cargar "B" 10]).compactarMemoriaFisica).numBloquesLibres ≤ 1 ∧
    sinLibresAdyacentes ((((Memoria.init 64).run [Op.cargar "A" 10,
        Op.cargar "B" 10]).liberarProceso "A").1.bloques) :=
  ⟨(C8_bloques_libres ((Memoria.init 64).run [Op.cargar "A" 10,
      Op.cargar "B" 10]) "A").1,
   (C8_bloques_libres ((Memoria.init 64).run [Op.cargar "A" 10,
      Op.cargar "B" 10]) "A").2 (by decide)⟩

/-- C8 counterexample: Release("A") succeeds on the state reached by
Allocate("A",10); Allocate("B",10) from capacity 64 and leaves two
positive-length FREE blocks (at offsets 0 and 20), so the free-block
count immediately after a successful Release is not at most 1. -/
theorem C8_contraejemplo :
    ((((Memoria.init 64).run [Op.cargar "A" 10, Op.cargar "B" 10]).liberarProceso
        "A").2 = LiberarResult.liberado) ∧
    ¬((((Memoria.init 64).run [Op.cargar "A" 10, Op.cargar "B" 10]).liberarProceso
        "A").1.numBloquesLibres ≤ 1) := by
  decide

/-- C10: Allocate performs no duplicate-owner check: with the owner
already present and a sufficient FREE block available the call succeeds
and adds a second block with that owner; a subsequent Release removes
only the first — by strict offset order, the lowest-offset — block with
that owner from the owner's blocks, leaving the rest in place. -/
theorem C10_dueno_duplicado (m : Memoria) (n : String) (t : Int)
    (hwf : WF m) (hn : ¬ n = LIBRE_BLOCK_NAME) (ht : 0 < t)
    (hpres : ∃ b ∈ m.bloques, b.nombre = n)
    (hfit : ∃ b ∈ m.bloques, b.nombre = LIBRE_BLOCK_NAME ∧ t ≤ b.tam) :
    (m.cargarProceso n t).2 = CargarResult.cargado ∧
    ((m.cargarProceso n t).1.bloques.filter fun b => b.nombre = n).length
      = (m.bloques.filter fun b => b.nombre = n).length + 1 ∧
    ((m.cargarProceso n t).1.liberarProceso n).2 = LiberarResult.liberado ∧
    (((m.cargarProceso n t).1.liberarProceso n).1.bloques.filter
        fun b => b.nombre = n)
      = ((m.cargarProceso n t).1.bloques.filter fun b => b.nombre = n).tail ∧
    List.Pairwise (fun a c => a.inicio < c.inicio)
      ((m.cargarProceso n t).1.bloques.filter fun b => b.nombre = n) := by
  -- the first-fit scan succeeds
  obtain ⟨bs, hc⟩ : ∃ bs, cargarAux n t m.bloques = some bs := by
    cases hcc : cargarAux n t m.bloques with
    | some bs => exact ⟨bs, rfl⟩
    | none =>
      obtain ⟨bf, hbf, hfree, hft⟩ := hfit
      exact absurd ⟨hfree, hft⟩ ((cargarAux_eq_none m.bloques).1 hcc bf hbf)
  have hcp : m.cargarProceso n t = ({ m with bloques := bs }, CargarResult.cargado) := by
    unfold Memoria.cargarProceso
    rw [if_neg (by omega), if_neg hn, hc]
  -- the count of blocks named n grows by one
  obtain ⟨p, b0, s, hlm, hp, hb0, hbs⟩ := cargarAux_decomp hc
  have hb0n : ¬ b0.nombre = n := by
    rw [hb0.1]
    intro hcontra
    exact hn hcontra.symm
  have hfil_re : (reemplazo n t b0).filter (fun b => b.nombre = n)
      = [if b0.tam = t then { b0 with nombre := n } else ⟨n, b0.inicio, t⟩] := by
    unfold reemplazo
    by_cases he : b0.tam = t
    · simp [he, List.filter_cons]
    · simp [he, List.filter_cons, Ne.symm hn]
  have hcount : (bs.filter fun b => b.nombre = n).length
      = (m.bloques.filter fun b => b.nombre = n).length + 1 := by
    rw [hbs, hlm]
    simp [List.filter_append, List.filter_cons, hfil_re, hb0n]
    omega
  refine ⟨by rw [hcp], by rw [hcp]; exact hcount, ?_⟩
  -- the release finds a block named n
  have hlen1 : 0 < (bs.filter fun b => b.nombre = n).length := by
    obtain ⟨bp, hbp, hbpn⟩ := hpres
    have : bp ∈ m.bloques.filter fun b => b.nombre = n :=
      List.mem_filter.2 ⟨hbp, by simp [hbpn]⟩
    have hpos1 : 0 < (m.bloques.filter fun b => b.nombre = n).length :=
      List.length_pos.2 fun hcontra => by rw [hcontra] at this; cases this
    omega
  obtain ⟨bs2, hl⟩ : ∃ bs2, liberarAux n bs = some bs2 := by
    cases hll : liberarAux n bs with
    | some bs2 => exact ⟨bs2, rfl⟩
    | none =>
      have hnone := (liberarAux_eq_none bs).1 hll
      have : bs.filter (fun b => b.nombre = n) = [] := by
        rw [List.filter_eq_nil_iff]
        intro x hx
        simpa using hnone x hx
      rw [this] at hlen1
      cases hlen1
  have hlp : ({ m with bloques := bs } : Memoria).liberarProceso n
      = ({ m with bloques := compactarEspaciosLibresAdyacentes bs2 },
          LiberarResult.liberado) := by
    unfold Memoria.liberarProceso
    rw [if_neg hn]
    simp only []
    rw [hl]
  -- the released block is the first n-named one
  obtain ⟨p2, c, s2, hbs2, hp2, hcn, hbs3⟩ := liberarAux_decomp hl
  have hfil_bs : bs.filter (fun b => b.nombre = n)
      = c :: s2.filter fun b => b.nombre = n := by
    rw [hbs2, List.filter_append, List.filter_cons]
    have : p2.filter (fun b => b.nombre = n) = [] := by
      rw [List.filter_eq_nil_iff]
      intro x hx
      simpa using hp2 x hx
    simp [this, hcn]
  have hfil_bs3 : (compactarEspaciosLibresAdyacentes bs2).filter
      (fun b => b.nombre = n) = s2.filter fun b => b.nombre = n := by
    rw [coalesce_filter_name hn, hbs3, List.filter_append, List.filter_cons]
    have hfreed : ¬ ({ c with nombre := LIBRE_BLOCK_NAME } : Bloque).nombre = n := by
      intro hcontra
      exact hn hcontra.symm
    have : p2.filter (fun b => b.nombre = n) = [] := by
      rw [List.filter_eq_nil_iff]
      intro x hx
      simpa using hp2 x hx
    simp [this, hfreed]
  -- strict offset order of the n-named blocks
  have hwf1 : WF (m.cargarProceso n t).1 := cargarProceso_wf n t hwf
  have hpair : List.Pairwise (fun a c => a.inicio < c.inicio)
      ((m.cargarProceso n t).1.bloques.filter fun b => b.nombre = n) :=
    List.Pairwise.sublist (List.filter_sublist _)
      (tile_pairwise _ 0 (m.cargarProceso n t).1.total_memoria hwf1.2.1 hwf1.2.2.2)
  refine ⟨by rw [hcp, hlp], ?_, hpair⟩
  rw [hcp, hlp]
  simp only []
  rw [hfil_bs3, hfil_bs, List.tail_cons]

theorem C10_dueno_duplicado_witness :
    (((Memoria.init 64).run [Op.cargar "A" 10]).cargarProceso "A" 20).2
        = CargarResult.cargado ∧
    ((((Memoria.init 64).run [Op.cargar "A" 10]).cargarProceso
          "A" 20).1.bloques.filter fun b => b.nombre = "A").length
      = (((Memoria.init 64).run [Op.cargar "A" 10]).bloques.filter
          fun b => b.nombre = "A").length + 1 ∧
    ((((Memoria.init 64).run [Op.cargar "A" 10]).cargarProceso
        "A" 20).1.liberarProceso "A").2 = LiberarResult.liberado ∧
    (((((Memoria.init 64).run [Op.cargar "A" 10]).cargarProceso
        "A" 20).1.liberarProceso "A").1.bloques.filter fun b => b.nombre = "A")
      = ((((Memoria.init 64).run [Op.cargar "A" 10]).cargarProceso
          "A" 20).1.bloques.filter fun b => b.nombre = "A").tail ∧
    List.Pairwise (fun a c => a.inicio < c.inicio)
      ((((Memoria.init 64).run [Op.cargar "A" 10]).cargarProceso
          "A" 20).1.bloques.filter fun b => b.nombre = "A") :=
  C10_dueno_duplicado ((Memoria.init 64).run [Op.cargar "A" 10]) "A" 20
    (by decide) (by decide) (by decide) (by decide) (by decide)

/-- C7 (amended): on a state with no two adjacent FREE blocks in which
the owner does not already label any block, a successful
Allocate(owner, length) followed immediately by Release(owner) restores
the exact previous state; in particular TotalFree() and the free-block
count return to their pre-allocate values.  Without the freshness
condition the claim is false — see the counterexample. -/
theorem C7_cargar_liberar (m : Memoria) (n : String) (t : Int)
    (hch : sinLibresAdyacentes m.bloques)
    (hfresh : ∀ b ∈ m.bloques, ¬ b.nombre = n)
    (hsucc : (m.cargarProceso n t).2 = CargarResult.cargado) :
    ((m.cargarProceso n t).1.liberarProceso n).1 = m ∧
    ((m.cargarProceso n t).1.liberarProceso n).1.fragExterna = m.fragExterna ∧
    ((m.cargarProceso n t).1.liberarProceso n).1.numBloquesLibres
      = m.numBloquesLibres := by
  obtain ⟨ht, hn, bs, hc, hm1⟩ := cargarProceso_cargado hsucc
  obtain ⟨p, b0, s, hlm, hp, hb0, hbs⟩ := cargarAux_decomp hc
  have hb0free : b0.nombre = LIBRE_BLOCK_NAME := hb0.1
  have hchm : sinLibresAdyacentes (p ++ b0 :: s) := by rw [← hlm]; exact hch
  have hsplit := List.chain'_split.1 hchm
  have hpb := hsplit.1
  have hbs0 := hsplit.2
  have hpfresh : ∀ x ∈ p, ¬ x.nombre = n := fun x hx =>
    hfresh x (by rw [hlm]; exact List.mem_append.2 (Or.inl hx))
  have hlib : ∀ (mm : Memoria) (bs2 : List Bloque),
      liberarAux n mm.bloques = some bs2 →
      (mm.liberarProceso n).1
        = { mm with bloques := compactarEspaciosLibresAdyacentes bs2 } := by
    intro mm bs2 hl
    unfold Memoria.liberarProceso
    rw [if_neg hn, hl]
  have hrest : ((m.cargarProceso n t).1.liberarProceso n).1 = m := by
    by_cases he : b0.tam = t
    · -- exact fit: the renamed block is released and nothing coalesces
      have hbs2 : bs = p ++ { b0 with nombre := n } :: s := by
        rw [hbs]
        unfold reemplazo
        rw [if_pos he]
        simp
      have hl1 : liberarAux n ((m.cargarProceso n t).1).bloques
          = some (p ++ { b0 with nombre := LIBRE_BLOCK_NAME } :: s) := by
        rw [hm1]
        show liberarAux n bs = _
        rw [hbs2]
        exact liberarAux_eq_some p hpfresh rfl
      rw [hlib _ _ hl1, hm1]
      have hfreed : ({ b0 with nombre := LIBRE_BLOCK_NAME } : Bloque) = b0 :=
        Bloque.ext hb0free.symm rfl rfl
      apply Memoria.ext
      · show compactarEspaciosLibresAdyacentes
            (p ++ { b0 with nombre := LIBRE_BLOCK_NAME } :: s) = m.bloques
        rw [hfreed, coalesce_id hchm, hlm]
      · rfl
    · -- partial fit: the new block is released and merges back into the
      -- free remainder
      have hbs2 : bs = p ++ (⟨n, b0.inicio, t⟩ : Bloque)
          :: (⟨LIBRE_BLOCK_NAME, b0.inicio + t, b0.tam - t⟩ : Bloque) :: s := by
        rw [hbs]
        unfold reemplazo
        rw [if_neg he]
        simp
      have hl1 : liberarAux n ((m.cargarProceso n t).1).bloques
          = some (p ++ (⟨LIBRE_BLOCK_NAME, b0.inicio, t⟩ : Bloque)
              :: (⟨LIBRE_BLOCK_NAME, b0.inicio + t, b0.tam - t⟩ : Bloque) :: s) := by
        rw [hm1]
        show liberarAux n bs = _
        rw [hbs2]
        exact liberarAux_eq_some p hpfresh rfl
      rw [hlib _ _ hl1, hm1]
      have hpb1 : sinLibresAdyacentes
          (p ++ [(⟨LIBRE_BLOCK_NAME, b0.inicio, t⟩ : Bloque)]) := by
        unfold sinLibresAdyacentes at hpb ⊢
        rw [List.chain'_append] at hpb ⊢
        refine ⟨hpb.1, List.chain'_singleton _, ?_⟩
        intro x hx y hy
        rcases Option.mem_some_iff.1 hy with rfl
        have hxb0 := hpb.2.2 x hx b0 (Option.mem_some_iff.2 rfl)
        intro hcontra
        exact hxb0 ⟨hcontra.1, hb0free⟩
      apply Memoria.ext
      · show compactarEspaciosLibresAdyacentes
            (p ++ (⟨LIBRE_BLOCK_NAME, b0.inicio, t⟩ : Bloque)
              :: (⟨LIBRE_BLOCK_NAME, b0.inicio + t, b0.tam - t⟩ : Bloque) :: s)
            = m.bloques
        rw [coalesce_append p hpb1, hlm]
        congr 1
        rw [compactarLibresAux, if_pos ⟨rfl, rfl⟩]
        have hmerged : ({ (⟨LIBRE_BLOCK_NAME, b0.inicio, t⟩ : Bloque) with
            tam := (⟨LIBRE_BLOCK_NAME, b0.inicio, t⟩ : Bloque).tam
              + (⟨LIBRE_BLOCK_NAME, b0.inicio + t, b0.tam - t⟩ : Bloque).tam }
            : Bloque) = b0 :=
          Bloque.ext hb0free.symm rfl (show t + (b0.tam - t) = b0.tam by ring)
        rw [hmerged]
        exact compactarLibresAux_id s b0 hbs0
      · rfl
  exact ⟨hrest, by rw [hrest], by rw [hrest]⟩

theorem C7_cargar_liberar_witness :
    ((((Memoria.init 64).run [Op.cargar "B" 5]).cargarProceso
        "A" 7).1.liberarProceso "A").1 = (Memoria.init 64).run [Op.cargar "B" 5] ∧
    ((((Memoria.init 64).run [Op.cargar "B" 5]).cargarProceso
        "A" 7).1.liberarProceso "A").1.fragExterna
      = ((Memoria.init 64).run [Op.cargar "B" 5]).fragExterna ∧
    ((((Memoria.init 64).run [Op.cargar "B" 5]).cargarProceso
        "A" 7).1.liberarProceso "A").1.numBloquesLibres
      = ((Memoria.init 64).run [Op.cargar "B" 5]).numBloquesLibres :=
  C7_cargar_liberar ((Memoria.init 64).run [Op.cargar "B" 5]) "A" 7
    (by decide) (by decide) (by decide)

/-- C7 counterexample: on the reachable state holding one block owned by
"A" (capacity 64, after Allocate("A",10)), Allocate("A",20) succeeds,
but the immediate Release("A") frees the other, older "A" block of
length 10: TotalFree goes from 54 to 44 instead of returning to 54. -/
theorem C7_contraejemplo :
    ((((Memoria.init 64).run [Op.cargar "A" 10]).cargarProceso "A" 20).2
        = CargarResult.cargado) ∧
    ¬(((((Memoria.init 64).run [Op.cargar "A" 10]).cargarProceso
          "A" 20).1.liberarProceso "A").1.fragExterna
        = ((Memoria.init 64).run [Op.cargar "A" 10]).fragExterna) := by
  decide

end Gestor
